import Mathlib

/-!
Verification of the geometry-to-configuration templating subsystem and the
execution-pipeline controller of the Meshing_workflow repository.

The Python sources are shallowly embedded:
* `generate_blockMeshDict.py` : bounding boxes over `ℚ`, the characteristic
  length `D`, the domain box built with the fixed directional multipliers,
  and the anchored numeric key rewrite over template lines.
* `case_structure.py` : whole-word placeholder renaming over character
  lists, the decomposeParDict patch loop, the snappyHexMeshDict injection
  state machine, and the case-preparation step ordering.
* `run.py` : the staged pipeline as a sequence of external commands run
  until the first non-zero exit status.

Values written by Python through an `:.6f` format and re-read from the
generated file are modelled by `round6`, rounding a rational to six decimal
digits.
-/

/-- Axis-aligned bounding box, six rational scalars as in `compute_bounds`. -/
structure Box where
  xmin : ℚ
  xmax : ℚ
  ymin : ℚ
  ymax : ℚ
  zmin : ℚ
  zmax : ℚ
deriving DecidableEq, Repr

/-- Characteristic length `D = max(xmax - xmin, ymax - ymin, zmax - zmin)`
(generate_blockMeshDict.py line 32). -/
def charLength (b : Box) : ℚ :=
  max (b.xmax - b.xmin) (max (b.ymax - b.ymin) (b.zmax - b.zmin))

/-- Domain box: upstream 3·D, downstream 15·D, lateral and vertical 3·D
(generate_blockMeshDict.py lines 41-46). -/
def domainBox (b : Box) : Box :=
  { xmin := b.xmin - 3 * charLength b
    xmax := b.xmax + 15 * charLength b
    ymin := b.ymin - 3 * charLength b
    ymax := b.ymax + 3 * charLength b
    zmin := b.zmin - 3 * charLength b
    zmax := b.zmax + 3 * charLength b }

/-- Rounding to six decimal digits, the effect of writing a value with the
Python format `:.6f` and reading it back. -/
def round6 (q : ℚ) : ℚ :=
  ((round (q * 1000000) : ℤ) : ℚ) / 1000000

/-- A rational exactly representable with six decimal digits. -/
def isRepr6 (q : ℚ) : Prop :=
  ∃ n : ℤ, q = (n : ℚ) / 1000000

/-- The domain box as recorded in the generated blockMeshDict file, each
value formatted with `:.6f` and re-read by `read_block_bounds`. -/
def writtenDomainBox (b : Box) : Box :=
  { xmin := round6 (domainBox b).xmin
    xmax := round6 (domainBox b).xmax
    ymin := round6 (domainBox b).ymin
    ymax := round6 (domainBox b).ymax
    zmin := round6 (domainBox b).zmin
    zmax := round6 (domainBox b).zmax }

/-- Refinement region from the surface box `b` and the downstream bound
`xm` read back from the blockMeshDict: `ref_min`/`ref_max` of
case_structure.py lines 107-109 with the fixed margin `M2 = 2`. -/
def refBox (b : Box) (xm : ℚ) : Box :=
  { xmin := b.xmin - 2
    xmax := xm
    ymin := b.ymin - 2
    ymax := b.ymax + 2
    zmin := b.zmin - 2
    zmax := b.zmax + 2 }

/-- Refinement region values as written into snappyHexMeshDict, each
formatted with `:.6f`. -/
def writtenRefBox (b : Box) : Box :=
  { xmin := round6 (b.xmin - 2)
    xmax := round6 (writtenDomainBox b).xmax
    ymin := round6 (b.ymin - 2)
    ymax := round6 (b.ymax + 2)
    zmin := round6 (b.zmin - 2)
    zmax := round6 (b.zmax + 2) }

/-- Strict containment of the inner box `i` in the outer box `o` on every
axis. -/
def strictlyContains (o i : Box) : Prop :=
  o.xmin < i.xmin ∧ i.xmax < o.xmax ∧
  o.ymin < i.ymin ∧ i.ymax < o.ymax ∧
  o.zmin < i.zmin ∧ i.zmax < o.zmax

/-- Containment (not necessarily strict) of `i` in `o` on every axis. -/
def containsBox (o i : Box) : Prop :=
  o.xmin ≤ i.xmin ∧ i.xmax ≤ o.xmax ∧
  o.ymin ≤ i.ymin ∧ i.ymax ≤ o.ymax ∧
  o.zmin ≤ i.zmin ∧ i.zmax ≤ o.zmax

/-- Word character as in the Python regex `\b` boundaries: ASCII
alphanumeric or underscore. -/
def isWordChar (c : Char) : Bool :=
  c.isAlphanum || c == '_'

/-- Boolean list-prefix test. -/
def lpre : List Char → List Char → Bool
  | [], _ => true
  | _ :: _, [] => false
  | a :: as, b :: bs => a == b && lpre as bs

/-- The text after a candidate match must not continue with a word
character, as required by the trailing `\b`. -/
def afterOk : List Char → Bool
  | [] => true
  | c :: _ => !(isWordChar c)

/-- Whether the last character of a word is a word character; this is the
boundary state the scan carries past a replacement. -/
def lastIsWord (w : List Char) : Bool :=
  match w.reverse with
  | [] => false
  | c :: _ => isWordChar c

/-- One left-to-right pass of `re.sub` for the pattern `\bw\b` with
replacement `r`: `prev` records whether the previous character of the
original text is a word character; a match consumes `w` and continues
after it without rescanning the replacement. -/
def wordSubGo (w r : List Char) (lw : Bool) (prev : Bool) : List Char → List Char
  | [] => []
  | c :: cs =>
    if (!prev) && lpre w (c :: cs) && afterOk (List.drop (w.length - 1) cs) then
      r ++ wordSubGo w r lw lw (List.drop (w.length - 1) cs)
    else
      c :: wordSubGo w r lw (isWordChar c) cs
termination_by t => t.length
decreasing_by
  · simp only [List.length_drop, List.length_cons]
    omega
  · simp only [List.length_cons]
    omega

/-- `re.sub(r"\bw\b", r, t)` for a literal word `w`. -/
def reSubWord (w r t : List Char) : List Char :=
  wordSubGo w r (lastIsWord w) false t

/-- The field-file renaming of case_structure.py lines 66-68: placeholder,
then cylinderGroup, then cylinder, each replaced as a whole word. -/
def renameFieldsC (n t : List Char) : List Char :=
  reSubWord ("cylinder".toList) n
    (reSubWord ("cylinderGroup".toList) (n ++ "Group".toList)
      (reSubWord ("placeholder".toList) n t))

/-- Whether `w` occurs as a contiguous substring of the text. -/
def occursB (w : List Char) : List Char → Bool
  | [] => w.isEmpty
  | c :: cs => lpre w (c :: cs) || occursB w cs

/-- Certificate, checking only the characters of `t`, that the match
condition at the head of `t ++ b` fails for every continuation `b`:
either a character mismatch strictly inside `t`, or the whole word matches
inside `t` and the character following it inside `t` is a word character. -/
def condFailsIn : List Char → List Char → Bool
  | [], [] => false
  | [], c :: _ => isWordChar c
  | _ :: _, [] => false
  | x :: xs, y :: ys => x != y || condFailsIn xs ys

/-- Scan state after traversing `a` starting from `p`: the word-character
status of the last character of `a`, or `p` if `a` is empty. -/
def prevAfter (p : Bool) : List Char → Bool
  | [] => p
  | c :: cs => prevAfter (isWordChar c) cs

/-- Certificate that a left-to-right scan starting with boundary state `p`
never matches while inside `a`, whatever text follows `a`. -/
def noMatchIn (w : List Char) (p : Bool) : List Char → Bool
  | [] => true
  | c :: cs => (p || condFailsIn w (c :: cs)) && noMatchIn w (isWordChar c) cs

/-- Whitespace characters of the Python regex class `\s` (ASCII range). -/
def isSpaceC (c : Char) : Bool :=
  c == ' ' || c == '\t' || c == '\n' || c == '\r' || c == '\x0b' || c == '\x0c'

/-- Decimal digit character. -/
def digitChar (k : Nat) : Char :=
  Char.ofNat (48 + k)

/-- Decimal digits of a natural number, most significant first, driven by
a fuel argument so the definition is structural; `n + 1` units of fuel
always suffice. -/
def natToDigitsAux : Nat → Nat → List Char
  | 0, _ => []
  | fuel + 1, n =>
    if n < 10 then [digitChar n]
    else natToDigitsAux fuel (n / 10) ++ [digitChar (n % 10)]

/-- Decimal digits of a natural number, most significant first. -/
def natToDigits (n : Nat) : List Char :=
  natToDigitsAux (n + 1) n

/-- A natural number below 10^6 printed as exactly six decimal digits,
zero padded. -/
def pad6 (m : Nat) : List Char :=
  [digitChar (m / 100000 % 10), digitChar (m / 10000 % 10),
   digitChar (m / 1000 % 10), digitChar (m / 100 % 10),
   digitChar (m / 10 % 10), digitChar (m % 10)]

/-- The Python format `f"{v:.6f}"` over rationals: round to six decimals,
print the integer part and exactly six fractional digits. -/
def fmt6 (q : ℚ) : List Char :=
  (if round (q * 1000000) < 0 then ['-'] else []) ++
    natToDigits ((round (q * 1000000) : ℤ).natAbs / 1000000) ++
    '.' :: pad6 ((round (q * 1000000) : ℤ).natAbs % 1000000)

/-- Split a character list at its first semicolon: `some (before, after)`
with the semicolon removed, or `none` if there is no semicolon. -/
def splitAtSemi : List Char → Option (List Char × List Char)
  | [] => none
  | c :: cs =>
    if c = ';' then some ([], cs)
    else
      match splitAtSemi cs with
      | none => none
      | some (a, b) => some (c :: a, b)

/-- First semicolon at an index of at least one: the lazy `.+?;` needs at
least one matched character, so the semicolon closing the match is the
first one strictly after the start, and the matched segment may itself
begin with a semicolon. -/
def splitAtSemiGe1 : List Char → Option (List Char × List Char)
  | [] => none
  | c :: cs =>
    match splitAtSemi cs with
    | none => none
    | some (a, b) => some (c :: a, b)

/-- The anchored numeric key rewrite of generate_blockMeshDict.py lines
52-85: the pattern `^(\s*key\s+).+?;` keeps leading whitespace, the key
and the greedy whitespace after it (group 1), and replaces the lazily
matched segment, which ends at the first semicolon at index at least one
of the remainder (the segment may span an earlier semicolon).  When no
such semicolon exists the engine backtracks the greedy `\s+` by one
character, which succeeds exactly when the remainder starts with a
semicolon and group 1 can spare a whitespace character.  `none` means the
pattern does not match and the line is left unchanged by the caller. -/
def keySubst (key val line : List Char) : Option (List Char) :=
  if lpre key (List.dropWhile isSpaceC line) then
    if List.takeWhile isSpaceC (List.drop key.length (List.dropWhile isSpaceC line)) = [] then
      none
    else
      match splitAtSemiGe1
        (List.dropWhile isSpaceC (List.drop key.length (List.dropWhile isSpaceC line))) with
      | some (_mid, tail) =>
        some (List.takeWhile isSpaceC line ++ key ++
          List.takeWhile isSpaceC (List.drop key.length (List.dropWhile isSpaceC line)) ++
          val ++ ';' :: tail)
      | none =>
        match List.dropWhile isSpaceC
          (List.drop key.length (List.dropWhile isSpaceC line)) with
        | [] => none
        | c :: tail =>
          if c = ';' ∧ 2 ≤ (List.takeWhile isSpaceC
              (List.drop key.length (List.dropWhile isSpaceC line))).length then
            some (List.takeWhile isSpaceC line ++ key ++
              (List.takeWhile isSpaceC
                (List.drop key.length (List.dropWhile isSpaceC line))).dropLast ++
              val ++ ';' :: tail)
          else none
  else none

/-- Python `str.strip`: remove leading and trailing whitespace. -/
def stripWs (l : List Char) : List Char :=
  List.reverse (List.dropWhile isSpaceC (List.reverse (List.dropWhile isSpaceC l)))

/-- Whether a decomposeParDict line is the subdomain-count line:
`L.strip().startswith("numberOfSubdomains")` of case_structure.py line 77. -/
def isSubdomainLine (l : List Char) : Bool :=
  lpre ("numberOfSubdomains".toList) (stripWs l)

/-- Python `str(n)` for an integer. -/
def intToChars (z : ℤ) : List Char :=
  if z < 0 then '-' :: natToDigits z.natAbs else natToDigits z.natAbs

/-- The replacement line `f"numberOfSubdomains {nSub};"` of
case_structure.py line 78. -/
def subLine (n : ℤ) : List Char :=
  "numberOfSubdomains ".toList ++ intToChars n ++ [';']

/-- The decomposeParDict patch loop of case_structure.py lines 76-80:
every line whose stripped form starts with the key is replaced, all other
lines are written back unchanged. -/
def patchDecompose (n : ℤ) (lines : List (List Char)) : List (List Char) :=
  lines.map (fun L => if isSubdomainLine L then subLine n else L)

/-- The snappyHexMeshDict injection state machine of case_structure.py
lines 111-137: `inject` is armed by the castellatedMeshControls header and
fires on the next stripped `\x7b` line, inserting the location line;
`inRef` is armed by a refinementBox header and rewrites the next
`min (`/`max (` lines, disarming on `max (`. -/
def snappyGo (loc rmin rmax : List Char) :
    Bool → Bool → List (List Char) → List (List Char)
  | _, _, [] => []
  | inject, inRef, L :: rest =>
    if stripWs L = "castellatedMeshControls".toList then
      L :: snappyGo loc rmin rmax true inRef rest
    else if inject && (stripWs L = "\x7b".toList) then
      L :: loc :: snappyGo loc rmin rmax false inRef rest
    else if lpre ("refinementBox".toList) (stripWs L) then
      L :: snappyGo loc rmin rmax inject true rest
    else if inRef && lpre ("min (".toList) (stripWs L) then
      rmin :: snappyGo loc rmin rmax inject inRef rest
    else if inRef && lpre ("max (".toList) (stripWs L) then
      rmax :: snappyGo loc rmin rmax inject false rest
    else
      L :: snappyGo loc rmin rmax inject inRef rest

/-- The whole snappyHexMeshDict pass, starting with both states off. -/
def snappyProcess (loc rmin rmax : List Char) (lines : List (List Char)) :
    List (List Char) :=
  snappyGo loc rmin rmax false false lines

/-- One line of the blockMeshDict generation loop of
generate_blockMeshDict.py lines 81-87: the keys are tried in order, the
first whose anchored pattern matches rewrites the line and the loop
breaks; if none matches the line passes through unchanged. -/
def bmdSubstLine (vals : List (List Char × ℚ)) (line : List Char) : List Char :=
  match vals with
  | [] => line
  | (k, v) :: rest =>
    match keySubst k (fmt6 v) line with
    | some out => out
    | none => bmdSubstLine rest line

/-- The blockMeshDict template pass. -/
def bmdProcess (vals : List (List Char × ℚ)) (lines : List (List Char)) :
    List (List Char) :=
  lines.map (bmdSubstLine vals)

/-- External commands issued by run.py, in the order of `main`. -/
inductive Cmd where
  | prepareCase : Cmd
  | blockMesh : Cmd
  | surfaceFeatureExtract : Cmd
  | decomposePar : Cmd
  | snappyPar (np : ℤ) : Cmd
  | snappySerial : Cmd
  | reconstructParMesh : Cmd
  | decomposeParSim : Cmd
  | solverPar (np : ℤ) (app : List Char) : Cmd
  | solverSerial (app : List Char) : Cmd
  | reconstructPar : Cmd
deriving DecidableEq

/-- The command sequence of run.py `main` (lines 60-110): `nproc` is read
only at the snappyHexMesh decision point and defaults to 1 when that
stage is serial; the solver invocation reuses the same `nproc`. -/
def mainCmds (runParallel : Bool) (nprocIn : ℤ) (runSol : Bool)
    (solver : List Char) : List Cmd :=
  [Cmd.prepareCase, Cmd.blockMesh, Cmd.surfaceFeatureExtract] ++
  (if runParallel then
    [Cmd.decomposePar, Cmd.snappyPar (if runParallel then nprocIn else 1),
     Cmd.reconstructParMesh]
   else [Cmd.snappySerial]) ++
  (if runSol then
    [Cmd.decomposeParSim,
     Cmd.solverPar (if runParallel then nprocIn else 1) solver,
     Cmd.reconstructPar]
   else [Cmd.solverSerial solver])

/-- `run_and_log` sequencing (run.py lines 31-37): commands run in order,
each `subprocess.run` is followed by `check_returncode`, so a non-zero
exit aborts the rest.  Returns the commands actually invoked and the
failing command, if any. -/
def runSeq (ex : Cmd → ℤ) : List Cmd → List Cmd × Option Cmd
  | [] => ([], none)
  | c :: cs =>
    if ex c = 0 then
      ((c :: (runSeq ex cs).1), (runSeq ex cs).2)
    else ([c], some c)

/-- Case directory contents, abstracted: either a pre-existing case from
an earlier run, a fresh copy of the template, or a fully prepared case. -/
inductive CaseDir where
  | preexisting (k : ℕ) : CaseDir
  | templateCopy : CaseDir
  | prepared (stlName : List Char) (nSub : ℤ) : CaseDir
deriving DecidableEq

/-- Errors raised during case preparation. -/
inductive PrepErr where
  | noGeometryFound : PrepErr
deriving DecidableEq

/-- `f.lower().endswith('.stl')` of case_structure.py line 53. -/
def endsWithStl (f : List Char) : Bool :=
  lpre (List.reverse (".stl".toList)) (List.reverse (f.map Char.toLower))

/-- `os.path.splitext(fname)[0]`: the name up to the last dot (the
hidden-file special case is irrelevant for STL names). -/
def stemOf (f : List Char) : List Char :=
  match List.dropWhile (fun c => !(c = '.' : Bool)) f.reverse with
  | [] => f
  | _ :: front => front.reverse

/-- Case preparation order of case_structure.py: lines 31-34 first remove
any existing case directory and copy the template, lines 52-58 then look
for STL files and raise if none is present.  The result is the final
case-directory state, the external subprocess invocations performed, and
the error if one was raised. -/
def casePrepare (folder : List (List Char)) (nSub : ℤ) (_c0 : Option CaseDir) :
    (Option CaseDir × List (List Char)) × Option PrepErr :=
  match folder.filter (fun f => endsWithStl f) with
  | [] => ((some CaseDir.templateCopy, []), some PrepErr.noGeometryFound)
  | f :: _ =>
    ((some (CaseDir.prepared (stemOf f) nSub),
      ["python3 generate_blockMeshDict".toList]), none)

theorem isRepr6_intCast (k : ℤ) : isRepr6 (k : ℚ) :=
  ⟨k * 1000000, by push_cast; field_simp⟩

theorem isRepr6_add {a b : ℚ} (ha : isRepr6 a) (hb : isRepr6 b) :
    isRepr6 (a + b) := by
  obtain ⟨n, rfl⟩ := ha
  obtain ⟨m, rfl⟩ := hb
  exact ⟨n + m, by push_cast; ring⟩

theorem isRepr6_sub {a b : ℚ} (ha : isRepr6 a) (hb : isRepr6 b) :
    isRepr6 (a - b) := by
  obtain ⟨n, rfl⟩ := ha
  obtain ⟨m, rfl⟩ := hb
  exact ⟨n - m, by push_cast; ring⟩

theorem isRepr6_intMul (k : ℤ) {a : ℚ} (ha : isRepr6 a) :
    isRepr6 ((k : ℚ) * a) := by
  obtain ⟨n, rfl⟩ := ha
  exact ⟨k * n, by push_cast; ring⟩

theorem isRepr6_max {a b : ℚ} (ha : isRepr6 a) (hb : isRepr6 b) :
    isRepr6 (max a b) := by
  rcases le_total a b with h | h
  · rwa [max_eq_right h]
  · rwa [max_eq_left h]

theorem round6_eq_self {q : ℚ} (h : isRepr6 q) : round6 q = q := by
  obtain ⟨n, rfl⟩ := h
  unfold round6
  have h6 : ((1000000 : ℚ)) ≠ 0 := by norm_num
  rw [div_mul_cancel₀ _ h6, round_intCast]

theorem isRepr6_charLength {b : Box}
    (h1 : isRepr6 b.xmin) (h2 : isRepr6 b.xmax) (h3 : isRepr6 b.ymin)
    (h4 : isRepr6 b.ymax) (h5 : isRepr6 b.zmin) (h6 : isRepr6 b.zmax) :
    isRepr6 (charLength b) :=
  isRepr6_max (isRepr6_sub h2 h1) (isRepr6_max (isRepr6_sub h4 h3) (isRepr6_sub h6 h5))

/-- C1: for every surface bounding box the characteristic length D is the
maximum of the three axis extents, the domain box is the surface box
shifted by 3·D toward -x, 15·D toward +x and widened by 3·D on both sides
in y and z, and for the unit cube (0,1,0,1,0,1) the domain box is
(-3,16,-3,4,-3,4). -/
theorem c1_domain_box :
    (∀ b : Box,
      charLength b = max (b.xmax - b.xmin) (max (b.ymax - b.ymin) (b.zmax - b.zmin)) ∧
      (domainBox b).xmin = b.xmin - 3 * charLength b ∧
      (domainBox b).xmax = b.xmax + 15 * charLength b ∧
      (domainBox b).ymin = b.ymin - 3 * charLength b ∧
      (domainBox b).ymax = b.ymax + 3 * charLength b ∧
      (domainBox b).zmin = b.zmin - 3 * charLength b ∧
      (domainBox b).zmax = b.zmax + 3 * charLength b) ∧
    domainBox ⟨0, 1, 0, 1, 0, 1⟩ = ⟨-3, 16, -3, 4, -3, 4⟩ := by
  constructor
  · intro b
    exact ⟨rfl, rfl, rfl, rfl, rfl, rfl, rfl⟩
  · show domainBox ⟨0, 1, 0, 1, 0, 1⟩ = ⟨-3, 16, -3, 4, -3, 4⟩
    have hD : charLength ⟨0, 1, 0, 1, 0, 1⟩ = 1 := by
      unfold charLength
      norm_num
    unfold domainBox
    rw [hD]
    norm_num

/-- C2 counterexample: for the degenerate surface box (0,0,0,0,0,0) the
characteristic length is 0, the domain box coincides with the surface box,
so it does not strictly contain it, and the refinement region is not
contained in the domain box either. -/
theorem c2_counterexample :
    ¬ (strictlyContains (domainBox ⟨0, 0, 0, 0, 0, 0⟩) ⟨0, 0, 0, 0, 0, 0⟩ ∧
       containsBox (domainBox ⟨0, 0, 0, 0, 0, 0⟩)
         (refBox ⟨0, 0, 0, 0, 0, 0⟩ (domainBox ⟨0, 0, 0, 0, 0, 0⟩).xmax)) := by
  intro h
  have h1 := h.1.1
  have hD : charLength ⟨0, 0, 0, 0, 0, 0⟩ = 0 := by
    unfold charLength
    norm_num
  unfold domainBox at h1
  rw [hD] at h1
  norm_num at h1

/-- C2 amended: for every surface bounding box whose characteristic length
D satisfies 3·D ≥ 2 (so the 3·D margin is at least the fixed refinement
margin 2), the domain box strictly contains the surface box on every axis
and the refinement region is contained in the domain box. -/
theorem c2_containment (b : Box) (h : 2 ≤ 3 * charLength b) :
    strictlyContains (domainBox b) b ∧
    containsBox (domainBox b) (refBox b (domainBox b).xmax) := by
  have hD : 0 < charLength b := by linarith
  constructor
  · refine ⟨?_, ?_, ?_, ?_, ?_, ?_⟩ <;>
      simp only [domainBox] <;> linarith
  · refine ⟨?_, ?_, ?_, ?_, ?_, ?_⟩ <;>
      simp only [domainBox, refBox] <;> linarith

/-- C2 witness: the unit cube satisfies the hypothesis and the amended
containment conclusion. -/
theorem c2_witness :
    strictlyContains (domainBox ⟨0, 1, 0, 1, 0, 1⟩) ⟨0, 1, 0, 1, 0, 1⟩ ∧
    containsBox (domainBox ⟨0, 1, 0, 1, 0, 1⟩)
      (refBox ⟨0, 1, 0, 1, 0, 1⟩ (domainBox ⟨0, 1, 0, 1, 0, 1⟩).xmax) :=
  c2_containment ⟨0, 1, 0, 1, 0, 1⟩ (by unfold charLength; norm_num)

/-- C3: for every surface bounding box with six-decimal-representable
coordinates, the refinement region written to snappyHexMeshDict has lower
corner equal to the surface minimum minus the fixed margin 2 on all three
axes, upper x equal to the domain box downstream boundary, and upper y and
z equal to the surface maximum plus the same margin 2. -/
theorem c3_refinement_region (b : Box)
    (h1 : isRepr6 b.xmin) (h2 : isRepr6 b.xmax) (h3 : isRepr6 b.ymin)
    (h4 : isRepr6 b.ymax) (h5 : isRepr6 b.zmin) (h6 : isRepr6 b.zmax) :
    writtenRefBox b =
      { xmin := b.xmin - 2
        xmax := (domainBox b).xmax
        ymin := b.ymin - 2
        ymax := b.ymax + 2
        zmin := b.zmin - 2
        zmax := b.zmax + 2 } := by
  have hD : isRepr6 (charLength b) := isRepr6_charLength h1 h2 h3 h4 h5 h6
  have h2' : isRepr6 (b.xmin - 2) := isRepr6_sub h1 (isRepr6_intCast 2)
  have h3' : isRepr6 (b.ymin - 2) := isRepr6_sub h3 (isRepr6_intCast 2)
  have h5' : isRepr6 (b.zmin - 2) := isRepr6_sub h5 (isRepr6_intCast 2)
  have h4' : isRepr6 (b.ymax + 2) := isRepr6_add h4 (isRepr6_intCast 2)
  have h6' : isRepr6 (b.zmax + 2) := isRepr6_add h6 (isRepr6_intCast 2)
  have hxm : isRepr6 (domainBox b).xmax := by
    have h15 : isRepr6 ((15 : ℚ) * charLength b) := by
      have := isRepr6_intMul 15 hD
      simpa using this
    exact isRepr6_add h2 h15
  have hwx : (writtenDomainBox b).xmax = (domainBox b).xmax := round6_eq_self hxm
  unfold writtenRefBox
  rw [hwx]
  rw [round6_eq_self h2', round6_eq_self hxm, round6_eq_self h3',
      round6_eq_self h4', round6_eq_self h5', round6_eq_self h6']

/-- C3 witness: the unit cube has representable coordinates and the
written refinement region is (-2, 16, -2, 3, -2, 3). -/
theorem c3_witness :
    writtenRefBox ⟨0, 1, 0, 1, 0, 1⟩ =
      { xmin := (0 : ℚ) - 2
        xmax := (domainBox ⟨0, 1, 0, 1, 0, 1⟩).xmax
        ymin := (0 : ℚ) - 2
        ymax := (1 : ℚ) + 2
        zmin := (0 : ℚ) - 2
        zmax := (1 : ℚ) + 2 } :=
  c3_refinement_region ⟨0, 1, 0, 1, 0, 1⟩
    ⟨0, by norm_num⟩ ⟨1000000, by norm_num⟩ ⟨0, by norm_num⟩
    ⟨1000000, by norm_num⟩ ⟨0, by norm_num⟩ ⟨1000000, by norm_num⟩

theorem wordSubGo_nil (w r : List Char) (lw p : Bool) :
    wordSubGo w r lw p [] = [] := by
  rw [wordSubGo]

theorem wordSubGo_cons_nomatch {w : List Char} (r : List Char) (lw : Bool)
    {p : Bool} {c : Char} {cs : List Char}
    (h : ((!p) && lpre w (c :: cs) && afterOk (List.drop (w.length - 1) cs)) = false) :
    wordSubGo w r lw p (c :: cs) = c :: wordSubGo w r lw (isWordChar c) cs := by
  rw [wordSubGo, if_neg (by simp [h])]

theorem wordSubGo_cons_match {w : List Char} (r : List Char) (lw : Bool)
    {p : Bool} {c : Char} {cs : List Char}
    (h : ((!p) && lpre w (c :: cs) && afterOk (List.drop (w.length - 1) cs)) = true) :
    wordSubGo w r lw p (c :: cs) =
      r ++ wordSubGo w r lw lw (List.drop (w.length - 1) cs) := by
  rw [wordSubGo, if_pos h]

theorem lpre_append_self (w b : List Char) : lpre w (w ++ b) = true := by
  induction w with
  | nil => rfl
  | cons c cs ih => simp [lpre, ih]

theorem lpre_false_of_occursB_false {w t : List Char}
    (hw : w ≠ []) (h : occursB w t = false) : lpre w t = false := by
  cases t with
  | nil =>
    cases w with
    | nil => exact absurd rfl hw
    | cons c cs => rfl
  | cons c cs =>
    simp only [occursB, Bool.or_eq_false_iff] at h
    exact h.1

/-- If the word never occurs as a substring, the substitution pass leaves
the text unchanged. -/
theorem wordSubGo_id {w : List Char} (r : List Char) (lw : Bool)
    (hw : w ≠ []) :
    ∀ t p, occursB w t = false → wordSubGo w r lw p t = t := by
  intro t
  induction t with
  | nil => intro p _; exact wordSubGo_nil w r lw p
  | cons c cs ih =>
    intro p h
    have hlp : lpre w (c :: cs) = false := lpre_false_of_occursB_false hw h
    have hrest : occursB w cs = false := by
      simp only [occursB, Bool.or_eq_false_iff] at h
      exact h.2
    rw [wordSubGo_cons_nomatch r lw (by simp [hlp]), ih _ hrest]

/-- Scanning an all-word-character run with the boundary state already
inside a word copies the run verbatim. -/
theorem wordSubGo_word_run {w : List Char} (r : List Char) (lw : Bool)
    (a : List Char) (ha : ∀ c ∈ a, isWordChar c = true) (b : List Char) :
    wordSubGo w r lw true (a ++ b) = a ++ wordSubGo w r lw true b := by
  induction a with
  | nil => rfl
  | cons c cs ih =>
    have hc : isWordChar c = true := ha c (by simp)
    rw [List.cons_append, wordSubGo_cons_nomatch r lw (by simp), hc,
      ih (fun x hx => ha x (by simp [hx]))]
    rfl

/-- The certificate indeed falsifies the head match condition for every
continuation. -/
theorem condFailsIn_sound {w t : List Char} (h : condFailsIn w t = true) :
    ∀ b, (lpre w (t ++ b) && afterOk (List.drop w.length (t ++ b))) = false := by
  induction w generalizing t with
  | nil =>
    intro b
    cases t with
    | nil => simp [condFailsIn] at h
    | cons c cs =>
      simp only [condFailsIn] at h
      simp [lpre, afterOk, h]
  | cons x xs ih =>
    intro b
    cases t with
    | nil => simp [condFailsIn] at h
    | cons y ys =>
      simp only [condFailsIn, Bool.or_eq_true, bne_iff_ne, ne_eq] at h
      rcases h with h | h
      · have hxy : (x == y) = false := by
          simp [beq_eq_false_iff_ne, h]
        simp [lpre, hxy]
      · have hs := ih h (b := b)
        simp only [List.cons_append, lpre, List.length_cons]
        have hdrop : List.drop (xs.length + 1) (y :: (ys ++ b)) =
            List.drop xs.length (ys ++ b) := by
          simp [List.drop_succ_cons]
        rw [hdrop]
        rcases Bool.and_eq_false_iff.mp hs with h1 | h1
        · simp [h1]
        · simp [h1]

/-- A scan over a segment carrying a `noMatchIn` certificate copies the
segment verbatim and exits with the boundary state of its last
character. -/
theorem wordSubGo_skip {w : List Char} (r : List Char) (lw : Bool)
    (hw : w ≠ []) :
    ∀ (a : List Char) (p : Bool), noMatchIn w p a = true →
      ∀ b, wordSubGo w r lw p (a ++ b) = a ++ wordSubGo w r lw (prevAfter p a) b := by
  intro a
  induction a with
  | nil => intro p _ b; rfl
  | cons c cs ih =>
    intro p h b
    simp only [noMatchIn, Bool.and_eq_true, Bool.or_eq_true] at h
    obtain ⟨h1, h2⟩ := h
    have hcond : ((!p) && lpre w (c :: (cs ++ b)) &&
        afterOk (List.drop (w.length - 1) (cs ++ b))) = false := by
      rcases h1 with hp | hcf
      · simp [hp]
      · have hs := condFailsIn_sound hcf (b := b)
        have hdrop : List.drop w.length ((c :: cs) ++ b) =
            List.drop (w.length - 1) (cs ++ b) := by
          cases w with
          | nil => exact absurd rfl hw
          | cons x xs =>
            simp [List.drop_succ_cons]
        rw [hdrop] at hs
        rw [List.cons_append] at hs
        rcases Bool.and_eq_false_iff.mp hs with h1 | h1
        · simp [h1]
        · simp [h1]
    rw [List.cons_append, wordSubGo_cons_nomatch r lw hcond, ih (isWordChar c) h2 b]
    rfl

/-- A whole text certified free of whole-word matches is returned
unchanged by one substitution pass. -/
theorem wordSubGo_id_of_noMatch {w : List Char} (r : List Char) (lw : Bool)
    (hw : w ≠ []) (t : List Char) (hc : noMatchIn w false t = true) :
    wordSubGo w r lw false t = t := by
  have h := wordSubGo_skip r lw hw t false hc []
  rw [List.append_nil, wordSubGo_nil, List.append_nil] at h
  exact h

/-- A match at the head: the word itself followed by a non-word boundary
is replaced and the scan continues after it. -/
theorem wordSubGo_match {w : List Char} (r : List Char) (lw : Bool)
    (hw : w ≠ []) (b : List Char) (hb : afterOk b = true) :
    wordSubGo w r lw false (w ++ b) = r ++ wordSubGo w r lw lw b := by
  cases w with
  | nil => exact absurd rfl hw
  | cons x xs =>
    have hdrop : List.drop ((x :: xs).length - 1) (xs ++ b) = b := by
      simp only [List.length_cons, Nat.add_sub_cancel]
      exact List.drop_left xs b
    have hlp : lpre (x :: xs) (x :: (xs ++ b)) = true := by
      have := lpre_append_self (x :: xs) b
      simpa using this
    rw [List.cons_append, wordSubGo_cons_match r lw (by rw [hdrop]; simp [hlp, hb]),
      hdrop]

/-- Entering an all-word-character run from a non-word boundary with no
match possible at its head copies the run and continues inside a word. -/
theorem wordSubGo_enter_word {w : List Char} (r : List Char) (lw : Bool)
    (hw : w ≠ []) (a b : List Char) (hane : a ≠ [])
    (haw : ∀ c ∈ a, isWordChar c = true)
    (hm : (lpre w (a ++ b) && afterOk (List.drop w.length (a ++ b))) = false) :
    wordSubGo w r lw false (a ++ b) = a ++ wordSubGo w r lw true b := by
  cases a with
  | nil => exact absurd rfl hane
  | cons c cs =>
    have hdrop : List.drop w.length ((c :: cs) ++ b) =
        List.drop (w.length - 1) (cs ++ b) := by
      cases w with
      | nil => exact absurd rfl hw
      | cons x xs => simp [List.drop_succ_cons]
    rw [hdrop] at hm
    rw [List.cons_append] at hm
    have hcond : ((!(false : Bool)) && lpre w (c :: (cs ++ b)) &&
        afterOk (List.drop (w.length - 1) (cs ++ b))) = false := by
      rcases Bool.and_eq_false_iff.mp hm with h1 | h1
      · simp [h1]
      · simp [h1]
    rw [List.cons_append, wordSubGo_cons_nomatch r lw hcond,
      haw c (by simp), wordSubGo_word_run r lw cs (fun x hx => haw x (by simp [hx])) b]
    rfl

/-- C4 amended: whole-word renaming for word-character target names.  For
every nonempty target name of word characters in which the placeholder
does not occur: (a) every text in which the scan certifies no whole-word
occurrence of any of the three patterns is returned unchanged, so
occurrences embedded inside longer identifiers are never altered, and
(b) on a text holding the bare token `cylinder`, the compound token
`cylinderGroup` and embedded occurrences (`cylinderx`, `xcylinder`), the
bare token becomes the name, the compound token the name followed by
`Group`, and the embedded occurrences stay.  (For names with non-word
characters the passes interfere; see the counterexample.) -/
theorem c4_whole_word_rename (n : List Char) (hne : n ≠ [])
    (hword : ∀ c ∈ n, isWordChar c = true)
    (hocc : occursB ("cylinder".toList) (n ++ "Group".toList) = false) :
    (∀ t, noMatchIn ("placeholder".toList) false t = true →
      noMatchIn ("cylinderGroup".toList) false t = true →
      noMatchIn ("cylinder".toList) false t = true →
      renameFieldsC n t = t) ∧
    renameFieldsC n ("cylinder cylinderx xcylinder cylinderGroup".toList) =
      n ++ " cylinderx xcylinder ".toList ++ n ++ "Group".toList := by
  constructor
  · intro t h1 h2 h3
    show reSubWord ("cylinder".toList) n
      (reSubWord ("cylinderGroup".toList) (n ++ "Group".toList)
        (reSubWord ("placeholder".toList) n t)) = t
    unfold reSubWord
    rw [wordSubGo_id_of_noMatch n _ (by decide) t h1,
      wordSubGo_id_of_noMatch (n ++ "Group".toList) _ (by decide) t h2,
      wordSubGo_id_of_noMatch n _ (by decide) t h3]
  have hcyl : ("cylinder".toList : List Char) ≠ [] := by decide
  have hcgr : ("cylinderGroup".toList : List Char) ≠ [] := by decide
  have hph : ("placeholder".toList : List Char) ≠ [] := by decide
  -- pass 1: no occurrence of "placeholder"
  have p1 : reSubWord ("placeholder".toList) n
      ("cylinder cylinderx xcylinder cylinderGroup".toList) =
      "cylinder cylinderx xcylinder cylinderGroup".toList :=
    wordSubGo_id n _ hph _ false (by decide)
  -- pass 2: replace the trailing cylinderGroup token
  have p2skip := wordSubGo_skip (w := "cylinderGroup".toList) (n ++ "Group".toList)
    (lastIsWord ("cylinderGroup".toList)) hcgr
    ("cylinder cylinderx xcylinder ".toList) false (by decide) ("cylinderGroup".toList)
  have p2match : wordSubGo ("cylinderGroup".toList) (n ++ "Group".toList)
      (lastIsWord ("cylinderGroup".toList)) false ("cylinderGroup".toList) =
      n ++ "Group".toList := by
    have h := wordSubGo_match (w := "cylinderGroup".toList) (n ++ "Group".toList)
      (lastIsWord ("cylinderGroup".toList)) hcgr [] (by decide)
    rw [List.append_nil] at h
    rw [h, wordSubGo_nil, List.append_nil]
  have p2 : reSubWord ("cylinderGroup".toList) (n ++ "Group".toList)
      ("cylinder cylinderx xcylinder cylinderGroup".toList) =
      "cylinder cylinderx xcylinder ".toList ++ (n ++ "Group".toList) := by
    rw [reSubWord]
    rw [show ("cylinder cylinderx xcylinder cylinderGroup".toList : List Char) =
      "cylinder cylinderx xcylinder ".toList ++ "cylinderGroup".toList from by decide]
    rw [p2skip]
    rw [show prevAfter false ("cylinder cylinderx xcylinder ".toList) = false from by decide]
    rw [p2match]
  -- pass 3: replace the leading bare cylinder token, skip the embedded ones,
  -- and pass through the substituted name
  have p3 : reSubWord ("cylinder".toList) n
      ("cylinder cylinderx xcylinder ".toList ++ (n ++ "Group".toList)) =
      n ++ (" cylinderx xcylinder ".toList ++ (n ++ "Group".toList)) := by
    rw [reSubWord]
    rw [show ("cylinder cylinderx xcylinder ".toList : List Char) ++ (n ++ "Group".toList) =
      "cylinder".toList ++ (" cylinderx xcylinder ".toList ++ (n ++ "Group".toList)) from by
        simp [List.append_assoc]]
    rw [wordSubGo_match (w := "cylinder".toList) n (lastIsWord ("cylinder".toList)) hcyl
      (" cylinderx xcylinder ".toList ++ (n ++ "Group".toList)) (by rfl)]
    rw [show lastIsWord ("cylinder".toList) = true from by decide]
    rw [wordSubGo_skip (w := "cylinder".toList) n true hcyl
      (" cylinderx xcylinder ".toList) true (by decide) (n ++ "Group".toList)]
    rw [show prevAfter true (" cylinderx xcylinder ".toList) = false from by decide]
    have hm : (lpre ("cylinder".toList) (n ++ "Group".toList) &&
        afterOk (List.drop ("cylinder".toList).length (n ++ "Group".toList))) = false := by
      have h2 := lpre_false_of_occursB_false hcyl hocc
      simp only [h2, Bool.false_and]
    rw [wordSubGo_enter_word n true hcyl n ("Group".toList) hne hword hm]
    rw [wordSubGo_id n true hcyl ("Group".toList) true (by decide)]
  rw [renameFieldsC, p1, p2, p3]
  simp [List.append_assoc]

/-- C4 counterexample: for the target name `cylinder-x` (a legitimate
surface name from `cylinder-x.stl`) the hyphen is a word boundary, so
after the second pass turns `cylinderGroup` into `cylinder-xGroup` the
third pass matches the embedded `cylinder` again and produces the
doubly-substituted identifier `cylinder-x-xGroup` instead of the intended
compound `cylinder-xGroup`. -/
theorem c4_counterexample :
    renameFieldsC ("cylinder-x".toList) ("cylinderGroup".toList) =
      "cylinder-x-xGroup".toList ∧
    ("cylinder-x-xGroup".toList : List Char) ≠
      "cylinder-x".toList ++ "Group".toList := by
  constructor
  · have p1 : wordSubGo ("placeholder".toList) ("cylinder-x".toList)
        (lastIsWord ("placeholder".toList)) false ("cylinderGroup".toList) =
        "cylinderGroup".toList :=
      wordSubGo_id _ _ (by decide) _ false (by decide)
    have p2 : wordSubGo ("cylinderGroup".toList)
        ("cylinder-x".toList ++ "Group".toList)
        (lastIsWord ("cylinderGroup".toList)) false ("cylinderGroup".toList) =
        "cylinder-x".toList ++ "Group".toList := by
      have h := wordSubGo_match (w := "cylinderGroup".toList)
        ("cylinder-x".toList ++ "Group".toList)
        (lastIsWord ("cylinderGroup".toList)) (by decide) [] (by decide)
      rw [List.append_nil] at h
      rw [h, wordSubGo_nil, List.append_nil]
    have hsplit : ("cylinder-x".toList : List Char) ++ "Group".toList =
        "cylinder".toList ++ "-xGroup".toList := by decide
    have p3 : wordSubGo ("cylinder".toList) ("cylinder-x".toList)
        (lastIsWord ("cylinder".toList)) false
        ("cylinder".toList ++ "-xGroup".toList) =
        "cylinder-x".toList ++ "-xGroup".toList := by
      rw [wordSubGo_match (w := "cylinder".toList) ("cylinder-x".toList)
        (lastIsWord ("cylinder".toList)) (by decide) ("-xGroup".toList) (by decide)]
      rw [wordSubGo_id _ _ (by decide) _ _ (by decide)]
    show reSubWord ("cylinder".toList) ("cylinder-x".toList)
      (reSubWord ("cylinderGroup".toList) ("cylinder-x".toList ++ "Group".toList)
        (reSubWord ("placeholder".toList) ("cylinder-x".toList)
          ("cylinderGroup".toList))) = "cylinder-x-xGroup".toList
    unfold reSubWord
    rw [p1, p2, hsplit, p3]
    decide
  · decide

/-- C4 witness: the renaming instantiated at the concrete target name
`wing`. -/
theorem c4_whole_word_rename_witness :
    (("wing".toList : List Char) ≠ [] ∧
     (∀ c ∈ "wing".toList, isWordChar c = true) ∧
     occursB ("cylinder".toList) ("wing".toList ++ "Group".toList) = false) ∧
    ((∀ t, noMatchIn ("placeholder".toList) false t = true →
        noMatchIn ("cylinderGroup".toList) false t = true →
        noMatchIn ("cylinder".toList) false t = true →
        renameFieldsC ("wing".toList) t = t) ∧
     renameFieldsC ("wing".toList)
         ("cylinder cylinderx xcylinder cylinderGroup".toList) =
       "wing".toList ++ " cylinderx xcylinder ".toList ++
         "wing".toList ++ "Group".toList) :=
  ⟨⟨by decide, by decide, by decide⟩,
    c4_whole_word_rename ("wing".toList) (by decide) (by decide) (by decide)⟩

theorem splitAtSemi_some {l a b : List Char} (h : splitAtSemi l = some (a, b)) :
    l = a ++ ';' :: b ∧ ';' ∉ a := by
  induction l generalizing a b with
  | nil => simp [splitAtSemi] at h
  | cons c cs ih =>
    by_cases hc : c = ';'
    · subst hc
      simp [splitAtSemi] at h
      obtain ⟨rfl, rfl⟩ := h
      simp
    · simp only [splitAtSemi, if_neg hc] at h
      cases hs : splitAtSemi cs with
      | none => rw [hs] at h; exact absurd h (by simp)
      | some p =>
        obtain ⟨a0, b0⟩ := p
        rw [hs] at h
        simp only [Option.some_inj, Prod.mk.injEq] at h
        obtain ⟨ha, hb⟩ := h
        obtain ⟨h3, h4⟩ := ih hs
        subst ha
        subst hb
        constructor
        · rw [h3]
          rfl
        · intro hm
          rcases List.mem_cons.mp hm with h5 | h5
          · exact hc h5.symm
          · exact h4 h5

theorem splitAtSemi_append {a : List Char} (b : List Char) (h : ';' ∉ a) :
    splitAtSemi (a ++ ';' :: b) = some (a, b) := by
  induction a with
  | nil => simp [splitAtSemi]
  | cons c cs ih =>
    have hc : c ≠ ';' := by
      intro hc
      exact h (by simp [hc])
    have hcs : ';' ∉ cs := fun hx => h (by simp [hx])
    simp only [List.cons_append, splitAtSemi, if_neg hc]
    rw [show List.append cs (';' :: b) = cs ++ ';' :: b from rfl, ih hcs]

theorem splitAtSemiGe1_some {l mid tail : List Char}
    (h : splitAtSemiGe1 l = some (mid, tail)) :
    l = mid ++ ';' :: tail ∧ mid ≠ [] := by
  cases l with
  | nil => simp [splitAtSemiGe1] at h
  | cons c cs =>
    simp only [splitAtSemiGe1] at h
    cases hs : splitAtSemi cs with
    | none => rw [hs] at h; exact absurd h (by simp)
    | some p =>
      obtain ⟨a, b⟩ := p
      rw [hs] at h
      simp only [Option.some_inj, Prod.mk.injEq] at h
      obtain ⟨ha, hb⟩ := h
      subst ha
      subst hb
      obtain ⟨h1, _⟩ := splitAtSemi_some hs
      subst h1
      exact ⟨rfl, by simp⟩

theorem splitAtSemiGe1_append (v0 : Char) (vrest b : List Char)
    (h : ';' ∉ vrest) :
    splitAtSemiGe1 ((v0 :: vrest) ++ ';' :: b) = some (v0 :: vrest, b) := by
  simp only [List.cons_append, splitAtSemiGe1]
  rw [splitAtSemi_append b h]

theorem takeWhile_append_not {p : Char → Bool} :
    ∀ (a b : List Char), (∀ c ∈ a, p c = true) →
      (∀ c rest, b = c :: rest → p c = false) →
      List.takeWhile p (a ++ b) = a := by
  intro a
  induction a with
  | nil =>
    intro b _ hb
    cases b with
    | nil => rfl
    | cons c rest => simp [List.takeWhile, hb c rest rfl]
  | cons c cs ih =>
    intro b ha hb
    have hc : p c = true := ha c (by simp)
    simp only [List.cons_append, List.takeWhile, hc]
    exact congrArg (c :: ·) (ih b (fun x hx => ha x (by simp [hx])) hb)

theorem dropWhile_append_not {p : Char → Bool} :
    ∀ (a b : List Char), (∀ c ∈ a, p c = true) →
      (∀ c rest, b = c :: rest → p c = false) →
      List.dropWhile p (a ++ b) = b := by
  intro a
  induction a with
  | nil =>
    intro b _ hb
    cases b with
    | nil => rfl
    | cons c rest => simp [List.dropWhile, hb c rest rfl]
  | cons c cs ih =>
    intro b ha hb
    have hc : p c = true := ha c (by simp)
    simp only [List.cons_append, List.dropWhile, hc]
    exact ih b (fun x hx => ha x (by simp [hx])) hb

theorem digitChar_facts {k : Nat} (h : k < 10) :
    isSpaceC (digitChar k) = false ∧ (digitChar k ≠ ';') ∧
      Char.isDigit (digitChar k) = true := by
  interval_cases k <;> exact ⟨by decide, by decide, by decide⟩

theorem natToDigits_ne_nil (n : Nat) : natToDigits n ≠ [] := by
  show natToDigitsAux (n + 1) n ≠ []
  simp only [natToDigitsAux]
  split <;> simp

theorem natToDigitsAux_good :
    ∀ (fuel n : Nat), ∀ c ∈ natToDigitsAux fuel n,
      isSpaceC c = false ∧ c ≠ ';' ∧ Char.isDigit c = true := by
  intro fuel
  induction fuel with
  | zero =>
    intro n c hc
    simp [natToDigitsAux] at hc
  | succ f ih =>
    intro n c hc
    simp only [natToDigitsAux] at hc
    split at hc
    · simp only [List.mem_singleton] at hc
      subst hc
      exact digitChar_facts (by omega)
    · rcases List.mem_append.mp hc with h1 | h1
      · exact ih (n / 10) c h1
      · simp only [List.mem_singleton] at h1
        subst h1
        exact digitChar_facts (Nat.mod_lt _ (by omega))

theorem natToDigits_good (n : Nat) :
    ∀ c ∈ natToDigits n, isSpaceC c = false ∧ c ≠ ';' ∧ Char.isDigit c = true :=
  fun c hc => natToDigitsAux_good (n + 1) n c hc

theorem pad6_good (m : Nat) :
    ∀ c ∈ pad6 m, isSpaceC c = false ∧ c ≠ ';' ∧ Char.isDigit c = true := by
  intro c hc
  simp only [pad6, List.mem_cons, List.not_mem_nil, or_false] at hc
  rcases hc with rfl | rfl | rfl | rfl | rfl | rfl <;>
    exact digitChar_facts (Nat.mod_lt _ (by omega))

theorem pad6_length (m : Nat) : (pad6 m).length = 6 := rfl

theorem fmt6_ne_nil (v : ℚ) : fmt6 v ≠ [] := by
  unfold fmt6
  split <;> simp

theorem fmt6_semi_not_mem (v : ℚ) : ';' ∉ fmt6 v := by
  unfold fmt6
  intro h
  rcases List.mem_append.mp h with h1 | h1
  · rcases List.mem_append.mp h1 with h2 | h2
    · split at h2 <;> simp_all
    · exact (natToDigits_good _ _ h2).2.1 rfl
  · rcases List.mem_cons.mp h1 with h2 | h2
    · exact absurd h2 (by decide)
    · exact (pad6_good _ _ h2).2.1 rfl

theorem fmt6_head_not_space (v : ℚ) :
    ∀ c rest, fmt6 v = c :: rest → isSpaceC c = false := by
  intro c rest h
  unfold fmt6 at h
  split at h
  · simp only [List.cons_append, List.append_assoc] at h
    have hcm : c = '-' := ((List.cons.injEq _ _ _ _).mp h).1.symm
    subst hcm
    decide
  · simp only [List.nil_append] at h
    cases hnd : natToDigits ((round (v * 1000000) : ℤ).natAbs / 1000000) with
    | nil => exact absurd hnd (natToDigits_ne_nil _)
    | cons d ds =>
      rw [hnd] at h
      simp only [List.cons_append, List.append_assoc] at h
      have hcd : c = d := ((List.cons.injEq _ _ _ _).mp h).1.symm
      subst hcd
      exact (natToDigits_good _ _ (by rw [hnd]; exact List.mem_cons_self _ _)).1

theorem lpre_decomp : ∀ {w t : List Char}, lpre w t = true →
    t = w ++ List.drop w.length t := by
  intro w
  induction w with
  | nil =>
    intro t _
    simp
  | cons x xs ih =>
    intro t h
    cases t with
    | nil => simp [lpre] at h
    | cons y ys =>
      simp only [lpre, Bool.and_eq_true, beq_iff_eq] at h
      obtain ⟨hxy, h2⟩ := h
      subst hxy
      have h3 := ih h2
      simp only [List.length_cons, List.drop_succ_cons, List.cons_append]
      exact congrArg (x :: ·) h3

/-- A line already in substituted shape is a fixed point of the key
rewrite. -/
theorem keySubst_fixed (key : List Char) (v : ℚ) (ws w1 tail : List Char)
    (hk : key ≠ []) (hks : ∀ c ∈ key, isSpaceC c = false)
    (hws : ∀ c ∈ ws, isSpaceC c = true) (hw1s : ∀ c ∈ w1, isSpaceC c = true)
    (hw1 : w1 ≠ []) :
    keySubst key (fmt6 v) (ws ++ key ++ w1 ++ fmt6 v ++ ';' :: tail) =
      some (ws ++ key ++ w1 ++ fmt6 v ++ ';' :: tail) := by
  obtain ⟨k0, ks, hkey⟩ := List.exists_cons_of_ne_nil hk
  obtain ⟨f0, fs, hf⟩ := List.exists_cons_of_ne_nil (fmt6_ne_nil v)
  have hk0 : isSpaceC k0 = false := by
    rw [hkey] at hks
    exact hks k0 (by simp)
  have hline : (ws ++ key ++ w1 ++ fmt6 v ++ ';' :: tail) =
      ws ++ (key ++ (w1 ++ (fmt6 v ++ ';' :: tail))) := by
    simp [List.append_assoc]
  have hbkey : ∀ c rest, (key ++ (w1 ++ (fmt6 v ++ ';' :: tail))) = c :: rest →
      isSpaceC c = false := by
    intro c rest hcr
    rw [hkey, List.cons_append] at hcr
    have hc : k0 = c := ((List.cons.injEq _ _ _ _).mp hcr).1
    rw [← hc]
    exact hk0
  have hbf : ∀ c rest, (fmt6 v ++ ';' :: tail) = c :: rest → isSpaceC c = false := by
    intro c rest hcr
    rw [hf, List.cons_append] at hcr
    have hc : f0 = c := ((List.cons.injEq _ _ _ _).mp hcr).1
    rw [← hc]
    exact fmt6_head_not_space v f0 fs hf
  have htw : List.takeWhile isSpaceC
      (ws ++ (key ++ (w1 ++ (fmt6 v ++ ';' :: tail)))) = ws :=
    takeWhile_append_not ws _ hws hbkey
  have hdw : List.dropWhile isSpaceC
      (ws ++ (key ++ (w1 ++ (fmt6 v ++ ';' :: tail)))) =
      key ++ (w1 ++ (fmt6 v ++ ';' :: tail)) :=
    dropWhile_append_not ws _ hws hbkey
  have hlpre : lpre key (key ++ (w1 ++ (fmt6 v ++ ';' :: tail))) = true :=
    lpre_append_self key _
  have hdropkey : List.drop key.length (key ++ (w1 ++ (fmt6 v ++ ';' :: tail))) =
      w1 ++ (fmt6 v ++ ';' :: tail) :=
    List.drop_left key _
  have htw1 : List.takeWhile isSpaceC (w1 ++ (fmt6 v ++ ';' :: tail)) = w1 :=
    takeWhile_append_not w1 _ hw1s hbf
  have hdw1 : List.dropWhile isSpaceC (w1 ++ (fmt6 v ++ ';' :: tail)) =
      fmt6 v ++ ';' :: tail :=
    dropWhile_append_not w1 _ hw1s hbf
  have hfs : ';' ∉ fs := by
    intro hx
    exact fmt6_semi_not_mem v (by rw [hf]; simp [hx])
  have hsplit : splitAtSemiGe1 (fmt6 v ++ ';' :: tail) = some (fmt6 v, tail) := by
    rw [hf]
    exact splitAtSemiGe1_append f0 fs tail hfs
  rw [hline]
  unfold keySubst
  rw [hdw, hdropkey, htw, htw1, hdw1]
  rw [if_pos hlpre, if_neg hw1, hsplit]
  simp [List.append_assoc]

theorem stripWs_eq_self {l : List Char} {c d : Char} {t t2 : List Char}
    (h1 : l = c :: t) (hc : isSpaceC c = false)
    (h2 : l = t2 ++ [d]) (hd : isSpaceC d = false) : stripWs l = l := by
  unfold stripWs
  have hdrop : List.dropWhile isSpaceC l = l := by
    rw [h1]
    simp [List.dropWhile, hc]
  rw [hdrop, h2]
  rw [List.reverse_append]
  simp only [List.reverse_cons, List.reverse_nil, List.nil_append, List.singleton_append]
  rw [show List.dropWhile isSpaceC (d :: t2.reverse) = d :: t2.reverse from by
    simp [List.dropWhile, hd]]
  simp

theorem intToChars_ne_nil (z : ℤ) : intToChars z ≠ [] := by
  unfold intToChars
  split
  · simp
  · exact natToDigits_ne_nil _

theorem subLine_matches (n : ℤ) : isSubdomainLine (subLine n) = true := by
  have hshape : subLine n = ("numberOfSubdomains ".toList ++ intToChars n) ++ [';'] := by
    unfold subLine
    simp [List.append_assoc]
  have hcons : subLine n = 'n' :: ("umberOfSubdomains ".toList ++ intToChars n ++ [';']) := by
    unfold subLine
    rfl
  have hstrip : stripWs (subLine n) = subLine n :=
    stripWs_eq_self hcons (by decide) hshape (by decide)
  unfold isSubdomainLine
  rw [hstrip]
  have : subLine n = "numberOfSubdomains".toList ++
      (' ' :: (intToChars n ++ [';'])) := by
    unfold subLine
    rfl
  rw [this]
  exact lpre_append_self _ _

/-- Every invoked command except possibly the last exited with status 0:
a stage runs only after all its predecessors succeeded. -/
theorem runSeq_predecessors_ok (ex : Cmd → ℤ) :
    ∀ (cmds : List Cmd) (i : ℕ) (c : Cmd), (runSeq ex cmds).1[i]? = some c →
      i + 1 < (runSeq ex cmds).1.length → ex c = 0 := by
  intro cmds
  induction cmds with
  | nil =>
    intro i c hc _
    simp [runSeq] at hc
  | cons c0 cs ih =>
    intro i c hc hi
    by_cases hex : ex c0 = 0
    · simp only [runSeq, if_pos hex] at hc hi
      cases i with
      | zero =>
        simp only [List.getElem?_cons_zero, Option.some_inj] at hc
        rw [← hc]
        exact hex
      | succ j =>
        simp only [List.getElem?_cons_succ] at hc
        simp only [List.length_cons] at hi
        exact ih j c hc (by omega)
    · simp only [runSeq, if_neg hex] at hi
      simp at hi

/-- C5 amended: whenever the anchored pattern for `key` matches `line`,
the output keeps the line's leading whitespace, the key, the whitespace
after it, the semicolon terminating the match and the text after it,
replacing only the lazily matched segment (the numeric literal on
well-formed lines, in general the shortest nonempty run ending before a
semicolon) by the value formatted with exactly six decimal digits; and
applying the same substitution to the output returns it byte-identically. -/
theorem c5_numeric_rewrite (key : List Char) (v : ℚ) (line out : List Char)
    (hk : key ≠ []) (hks : ∀ c ∈ key, isSpaceC c = false)
    (h : keySubst key (fmt6 v) line = some out) :
    keySubst key (fmt6 v) out = some out ∧
    (∃ ws w1 mid tail,
      line = ws ++ key ++ w1 ++ mid ++ ';' :: tail ∧
      out = ws ++ key ++ w1 ++ fmt6 v ++ ';' :: tail ∧
      (∀ c ∈ ws, isSpaceC c = true) ∧ (∀ c ∈ w1, isSpaceC c = true)) ∧
    (∃ ip fr, fmt6 v = ip ++ '.' :: fr ∧ fr.length = 6 ∧
      ∀ c ∈ fr, Char.isDigit c = true) := by
  have hshape : ∃ ip fr, fmt6 v = ip ++ '.' :: fr ∧ fr.length = 6 ∧
      ∀ c ∈ fr, Char.isDigit c = true := by
    refine ⟨(if round (v * 1000000) < 0 then ['-'] else []) ++
      natToDigits ((round (v * 1000000) : ℤ).natAbs / 1000000),
      pad6 ((round (v * 1000000) : ℤ).natAbs % 1000000), ?_, rfl, ?_⟩
    · unfold fmt6
      simp [List.append_assoc]
    · intro c hc
      exact (pad6_good _ _ hc).2.2
  have hws : ∀ c ∈ List.takeWhile isSpaceC line, isSpaceC c = true :=
    fun c hc => List.mem_takeWhile_imp hc
  unfold keySubst at h
  split at h
  case isFalse => exact absurd h (by simp)
  case isTrue hlp =>
  split at h
  case isTrue => exact absurd h (by simp)
  case isFalse hwne =>
  set ws := List.takeWhile isSpaceC line with hwsdef
  set A := List.dropWhile isSpaceC line with hAdef
  set R1 := List.drop key.length A with hR1def
  set w := List.takeWhile isSpaceC R1 with hwdef
  set R2 := List.dropWhile isSpaceC R1 with hR2def
  have hlineA : line = ws ++ A := (List.takeWhile_append_dropWhile isSpaceC line).symm
  have hAdec : A = key ++ R1 := lpre_decomp hlp
  have hR1dec : R1 = w ++ R2 := (List.takeWhile_append_dropWhile isSpaceC R1).symm
  have hwsp : ∀ c ∈ w, isSpaceC c = true := fun c hc => List.mem_takeWhile_imp hc
  clear_value R2 w R1 A ws
  cases hsg : splitAtSemiGe1 R2 with
  | some p =>
    obtain ⟨mid, tail⟩ := p
    rw [hsg] at h
    dsimp only at h
    obtain ⟨hR2dec, hmidne⟩ := splitAtSemiGe1_some hsg
    have hout : out = ws ++ key ++ w ++ fmt6 v ++ ';' :: tail :=
      (Option.some_inj.mp h).symm
    have hfix := keySubst_fixed key v ws w tail hk hks hws hwsp hwne
    refine ⟨by rw [hout]; exact hfix, ?_, hshape⟩
    refine ⟨ws, w, mid, tail, ?_, hout, hws, hwsp⟩
    rw [hlineA, hAdec, hR1dec, hR2dec]
    simp [List.append_assoc]
  | none =>
    rw [hsg] at h
    dsimp only at h
    split at h
    next =>
      exact absurd h (by simp)
    next c tail =>
      split at h
      next hcond =>
        obtain ⟨hc, hwlen⟩ := hcond
        subst hc
        have hout : out = ws ++ key ++ w.dropLast ++ fmt6 v ++ ';' :: tail :=
          (Option.some_inj.mp h).symm
        have hwne2 : w ≠ [] := hwne
        have hwd : w.dropLast ++ [w.getLast hwne2] = w :=
          List.dropLast_append_getLast hwne2
        have hwdne : w.dropLast ≠ [] := by
          intro hx
          have hlen : w.length - 1 = 0 := by
            rw [← List.length_dropLast, hx]
            rfl
          omega
        have hwdsp : ∀ c ∈ w.dropLast, isSpaceC c = true :=
          fun c hc => hwsp c (List.dropLast_subset w hc)
        have hfix := keySubst_fixed key v ws w.dropLast tail hk hks hws hwdsp hwdne
        refine ⟨by rw [hout]; exact hfix, ?_, hshape⟩
        refine ⟨ws, w.dropLast, [w.getLast hwne2], tail, ?_, hout, hws, hwdsp⟩
        rw [hlineA, hAdec, hR1dec]
        have hglue : w.dropLast ++ ([w.getLast hwne2] ++ ';' :: tail) =
            w ++ ';' :: tail := by
          rw [← List.append_assoc, hwd]
        simp only [List.nil_append, List.append_assoc, hglue]
      next =>
        exact absurd h (by simp)

/-- C6 amended: if the template has exactly one subdomain-count line, the
patched file has exactly one such line, that line is the substituted line
for `n`, the file has the same number of lines, and every line whose
original was not the subdomain-count line is byte-for-byte unchanged. -/
theorem c6_decompose_patch (n : ℤ) (lines : List (List Char))
    (h : lines.countP (fun L => isSubdomainLine L) = 1) :
    (patchDecompose n lines).countP (fun L => isSubdomainLine L) = 1 ∧
    (∀ L ∈ patchDecompose n lines, isSubdomainLine L = true → L = subLine n) ∧
    (patchDecompose n lines).length = lines.length ∧
    (∀ i : ℕ, (∀ L, lines[i]? = some L → isSubdomainLine L = false) →
      (patchDecompose n lines)[i]? = lines[i]?) := by
  refine ⟨?_, ?_, ?_, ?_⟩
  · have hcount : ∀ ls : List (List Char),
        (patchDecompose n ls).countP (fun L => isSubdomainLine L) =
          ls.countP (fun L => isSubdomainLine L) := by
      intro ls
      induction ls with
      | nil => rfl
      | cons L rest ih =>
        by_cases hL : isSubdomainLine L = true
        · simp only [patchDecompose, List.map_cons, List.countP_cons, if_pos hL]
          simp only [patchDecompose] at ih
          rw [ih, subLine_matches n]
          simp [hL]
        · have hLf : isSubdomainLine L = false := by
            simpa using hL
          simp only [patchDecompose, List.map_cons, List.countP_cons, if_neg hL]
          simp only [patchDecompose] at ih
          rw [ih]
    rw [hcount, h]
  · intro L hL hmatch
    rcases List.mem_map.mp hL with ⟨L0, _, hL0⟩
    by_cases h0 : isSubdomainLine L0 = true
    · rw [if_pos h0] at hL0
      exact hL0.symm
    · rw [if_neg h0] at hL0
      rw [← hL0] at hmatch
      exact absurd hmatch h0
  · exact List.length_map _ _
  · intro i hi
    rw [patchDecompose, List.getElem?_map]
    cases hg : lines[i]? with
    | none => rfl
    | some L =>
      have hf : isSubdomainLine L = false := hi L hg
      simp [hf]

/-- C7 amended: when the castellatedMeshControls header and the
refinementBox header are absent from the template, the injection pass
silently returns the template unchanged, omitting the substitutions; no
TemplateFormatError exists anywhere in the code. -/
theorem c7_silent_omission (loc rmin rmax : List Char) (lines : List (List Char))
    (h1 : ∀ L ∈ lines, stripWs L ≠ "castellatedMeshControls".toList)
    (h2 : ∀ L ∈ lines, lpre ("refinementBox".toList) (stripWs L) = false) :
    snappyProcess loc rmin rmax lines = lines := by
  unfold snappyProcess
  induction lines with
  | nil => rfl
  | cons L rest ih =>
    have hh1 : stripWs L ≠ "castellatedMeshControls".toList := h1 L (by simp)
    have hh2 : lpre ("refinementBox".toList) (stripWs L) = false := h2 L (by simp)
    rw [snappyGo, if_neg hh1]
    rw [if_neg (by simp : ¬(false && (stripWs L = "\x7b".toList) : Bool) = true)]
    rw [if_neg (by simp only [hh2]; simp)]
    rw [if_neg (by simp : ¬(false && lpre ("min (".toList) (stripWs L) : Bool) = true)]
    rw [if_neg (by simp : ¬(false && lpre ("max (".toList) (stripWs L) : Bool) = true)]
    rw [ih (fun x hx => h1 x (by simp [hx])) (fun x hx => h2 x (by simp [hx]))]

/-- C5 counterexample: the lazy match can span an earlier semicolon, so
the rewrite can consume non-numeric text.  On the line `    xmin  ;q;`
the matched segment is `;q` and the substitution deletes the non-digit
character `q` together with the first semicolon, so the rewrite does not
replace only a numeric literal. -/
theorem c5_counterexample :
    keySubst ("xmin".toList) (fmt6 5) ("    xmin  ;q;".toList) =
      some ("    xmin  5.000000;".toList) ∧
    'q' ∈ ("    xmin  ;q;".toList : List Char) ∧
    'q' ∉ ("    xmin  5.000000;".toList : List Char) ∧
    Char.isDigit 'q' = false := by
  refine ⟨?_, by decide, by decide, by decide⟩
  have hr : round ((5 : ℚ) * 1000000) = 5000000 := by norm_num [round_eq]
  have hfmt : fmt6 5 = "5.000000".toList := by
    unfold fmt6
    rw [hr]
    decide
  rw [hfmt]
  decide

/-- C5 witness: the rewrite of a concrete xmin line, applied twice. -/
theorem c5_numeric_rewrite_witness :
    keySubst ("xmin".toList) (fmt6 5) ("    xmin 5.000000; // comment".toList) =
      some ("    xmin 5.000000; // comment".toList) ∧
    (∃ ws w1 mid tail,
      ("    xmin 3.5; // comment".toList : List Char) =
        ws ++ "xmin".toList ++ w1 ++ mid ++ ';' :: tail ∧
      ("    xmin 5.000000; // comment".toList : List Char) =
        ws ++ "xmin".toList ++ w1 ++ fmt6 5 ++ ';' :: tail ∧
      (∀ c ∈ ws, isSpaceC c = true) ∧ (∀ c ∈ w1, isSpaceC c = true)) ∧
    (∃ ip fr, fmt6 5 = ip ++ '.' :: fr ∧ fr.length = 6 ∧
      ∀ c ∈ fr, Char.isDigit c = true) :=
  c5_numeric_rewrite ("xmin".toList) 5 ("    xmin 3.5; // comment".toList)
    ("    xmin 5.000000; // comment".toList) (by decide) (by decide)
    (by
      have hr : round ((5 : ℚ) * 1000000) = 5000000 := by norm_num [round_eq]
      have hfmt : fmt6 5 = "5.000000".toList := by
        unfold fmt6
        rw [hr]
        decide
      rw [hfmt]
      decide)

/-- C6 counterexample: on a template with no subdomain-count line the
patched file also has none, not exactly one. -/
theorem c6_counterexample :
    ¬ (patchDecompose 4 ["method scotch;".toList]).countP
        (fun L => isSubdomainLine L) = 1 := by decide

/-- C6 witness: a two-line template with one subdomain-count line,
patched to 8 subdomains. -/
theorem c6_decompose_patch_witness :
    (patchDecompose 8 ["numberOfSubdomains 4;".toList,
        "method          scotch;".toList]).countP
      (fun L => isSubdomainLine L) = 1 ∧
    (∀ L ∈ patchDecompose 8 ["numberOfSubdomains 4;".toList,
        "method          scotch;".toList],
      isSubdomainLine L = true → L = subLine 8) ∧
    (patchDecompose 8 ["numberOfSubdomains 4;".toList,
        "method          scotch;".toList]).length =
      (["numberOfSubdomains 4;".toList,
        "method          scotch;".toList] : List (List Char)).length ∧
    (∀ i : ℕ, (∀ L, (["numberOfSubdomains 4;".toList,
          "method          scotch;".toList] : List (List Char))[i]? = some L →
        isSubdomainLine L = false) →
      (patchDecompose 8 ["numberOfSubdomains 4;".toList,
          "method          scotch;".toList])[i]? =
        (["numberOfSubdomains 4;".toList,
          "method          scotch;".toList] : List (List Char))[i]?) :=
  c6_decompose_patch 8 _ (by decide)

/-- C7 counterexample: a template with no castellatedMeshControls header
is passed through unchanged with the location line never inserted, and a
blockMesh template with no xmin key line is returned unchanged; nothing
fails. -/
theorem c7_counterexample :
    snappyProcess ("    locationInMesh (9 9 9);".toList)
        ("        min (0 0 0);".toList) ("        max (1 1 1);".toList)
        ["geometry".toList, "\x7b".toList, "    min (5 5 5);".toList] =
      ["geometry".toList, "\x7b".toList, "    min (5 5 5);".toList] ∧
    ("    locationInMesh (9 9 9);".toList) ∉ snappyProcess
        ("    locationInMesh (9 9 9);".toList)
        ("        min (0 0 0);".toList) ("        max (1 1 1);".toList)
        ["geometry".toList, "\x7b".toList, "    min (5 5 5);".toList] ∧
    bmdProcess [("xmin".toList, 5)] ["hello world".toList] =
      ["hello world".toList] := by
  refine ⟨by decide, by decide, by decide⟩

/-- C7 witness: a concrete header-free template is returned unchanged. -/
theorem c7_silent_omission_witness :
    snappyProcess ("    locationInMesh (9 9 9);".toList)
        ("        min (0 0 0);".toList) ("        max (1 1 1);".toList)
        ["geometry".toList, "\x7b".toList] =
      ["geometry".toList, "\x7b".toList] :=
  c7_silent_omission _ _ _ _ (by decide) (by decide)

/-- C8: if case preparation and blockMesh succeed and
surfaceFeatureExtract exits non-zero, the run stops there reporting that
stage, no snappyHexMesh command (parallel or serial) is ever invoked, and
in every run each invoked command except possibly the last exited with
status 0, so no stage begins before its predecessor succeeded. -/
theorem c8_stage_ordering (ex : Cmd → ℤ) (rp : Bool) (np : ℤ) (rs : Bool)
    (sol : List Char)
    (h0 : ex Cmd.prepareCase = 0) (h1 : ex Cmd.blockMesh = 0)
    (h2 : ex Cmd.surfaceFeatureExtract ≠ 0) :
    runSeq ex (mainCmds rp np rs sol) =
      ([Cmd.prepareCase, Cmd.blockMesh, Cmd.surfaceFeatureExtract],
        some Cmd.surfaceFeatureExtract) ∧
    (∀ k, Cmd.snappyPar k ∉ (runSeq ex (mainCmds rp np rs sol)).1) ∧
    Cmd.snappySerial ∉ (runSeq ex (mainCmds rp np rs sol)).1 ∧
    (∀ (ex2 : Cmd → ℤ) (cmds : List Cmd) (i : ℕ) (c : Cmd),
      (runSeq ex2 cmds).1[i]? = some c → i + 1 < (runSeq ex2 cmds).1.length →
        ex2 c = 0) := by
  have heq : runSeq ex (mainCmds rp np rs sol) =
      ([Cmd.prepareCase, Cmd.blockMesh, Cmd.surfaceFeatureExtract],
        some Cmd.surfaceFeatureExtract) := by
    cases rp <;> cases rs <;>
      simp [mainCmds, runSeq, h0, h1, h2]
  refine ⟨heq, ?_, ?_, fun ex2 cmds i c hc hi => runSeq_predecessors_ok ex2 cmds i c hc hi⟩
  · intro k
    rw [heq]
    simp
  · rw [heq]
    simp

/-- C8 witness: a run whose surfaceFeatureExtract exits 1 stops after the
third stage. -/
theorem c8_stage_ordering_witness :
    runSeq (fun c => if c = Cmd.surfaceFeatureExtract then 1 else 0)
        (mainCmds false 4 false ("simpleFoam".toList)) =
      ([Cmd.prepareCase, Cmd.blockMesh, Cmd.surfaceFeatureExtract],
        some Cmd.surfaceFeatureExtract) ∧
    (∀ k, Cmd.snappyPar k ∉ (runSeq (fun c => if c = Cmd.surfaceFeatureExtract then 1 else 0)
        (mainCmds false 4 false ("simpleFoam".toList))).1) ∧
    Cmd.snappySerial ∉ (runSeq (fun c => if c = Cmd.surfaceFeatureExtract then 1 else 0)
        (mainCmds false 4 false ("simpleFoam".toList))).1 ∧
    (∀ (ex2 : Cmd → ℤ) (cmds : List Cmd) (i : ℕ) (c : Cmd),
      (runSeq ex2 cmds).1[i]? = some c → i + 1 < (runSeq ex2 cmds).1.length →
        ex2 c = 0) :=
  c8_stage_ordering (fun c => if c = Cmd.surfaceFeatureExtract then 1 else 0)
    false 4 false ("simpleFoam".toList) (by decide) (by decide) (by decide)

/-- C9 counterexample: with a pre-existing case and no STL file in the
input folder, preparation raises the no-geometry error but only after
destroying the pre-existing case and recreating it from the template, so
the pre-existing case directory is not left unmodified. -/
theorem c9_counterexample :
    casePrepare [("readme.txt".toList)] 4 (some (CaseDir.preexisting 7)) =
      ((some CaseDir.templateCopy, []), some PrepErr.noGeometryFound) ∧
    some CaseDir.templateCopy ≠ some (CaseDir.preexisting 7) := by
  refine ⟨by decide, by decide⟩

/-- C9 amended: when the input folder holds no STL file, case preparation
aborts with the explicit no-geometry error before any subprocess
invocation, but the case directory has already been recreated as a fresh
template copy (recreation precedes discovery in the code). -/
theorem c9_discovery_failure (folder : List (List Char)) (n : ℤ)
    (c0 : Option CaseDir)
    (h : folder.filter (fun f => endsWithStl f) = []) :
    casePrepare folder n c0 =
      ((some CaseDir.templateCopy, []), some PrepErr.noGeometryFound) := by
  unfold casePrepare
  rw [h]

/-- C9 witness: a folder holding only a text file. -/
theorem c9_discovery_failure_witness :
    casePrepare [("readme.txt".toList)] 6 none =
      ((some CaseDir.templateCopy, []), some PrepErr.noGeometryFound) :=
  c9_discovery_failure [("readme.txt".toList)] 6 none (by decide)

/-- C10 counterexample: with identical solve-point choices, the solver
worker count changes with the refinement-point choice: serial refinement
forces the parallel solve to run with one worker while parallel
refinement with 8 workers makes the solve use 8, so the solve point does
not choose its own worker count. -/
theorem c10_counterexample :
    Cmd.solverPar 1 ("simpleFoam".toList) ∈
      mainCmds false 8 true ("simpleFoam".toList) ∧
    Cmd.solverPar 8 ("simpleFoam".toList) ∈
      mainCmds true 8 true ("simpleFoam".toList) ∧
    Cmd.solverPar 8 ("simpleFoam".toList) ∉
      mainCmds false 8 true ("simpleFoam".toList) := by
  refine ⟨by decide, by decide, by decide⟩

/-- C10 amended: the serial/parallel choices at the two decision points
are independent, the refinement worker count is the one entered at the
refinement point, but the solve invocation reuses the refinement point's
worker count (1 when refinement was serial) instead of choosing its
own. -/
theorem c10_decision_points (rp : Bool) (np : ℤ) (rs : Bool) (sol : List Char) :
    ((∃ k, Cmd.snappyPar k ∈ mainCmds rp np rs sol) ↔ rp = true) ∧
    ((∃ k a, Cmd.solverPar k a ∈ mainCmds rp np rs sol) ↔ rs = true) ∧
    (∀ k, Cmd.snappyPar k ∈ mainCmds rp np rs sol → k = np) ∧
    (∀ k a, Cmd.solverPar k a ∈ mainCmds rp np rs sol →
      k = (if rp then np else 1) ∧ a = sol) := by
  cases rp <;> cases rs <;> simp [mainCmds]
